import Mathlib

/-!
Verification of the sonic-py-swsssdk configuration-database access layer.

The Python sources (`swsssdk/configdb.py`, `swsssdk/interface.py`) are embedded
shallowly: Python strings are lists of characters, Python dicts are
insertion-ordered association lists with unique keys (assignment replaces a
value in place, fresh keys are appended at the end, exactly as in CPython
3.7+), and the Redis store is an association list from key strings to hashes.
-/

namespace Swsssdk

/-- A Python string, as its list of characters. -/
abbrev Str := List Char

/-- Shorthand for turning a Lean string literal into a `Str`. -/
def str (s : String) : Str := s.data

/-! ### Python dict as an insertion-ordered association list -/

/-- `d[k]` lookup, `none` when the key is absent. -/
def dlookup {κ α : Type} [DecidableEq κ] : List (κ × α) → κ → Option α
  | [], _ => none
  | p :: ps, k => if p.1 = k then some p.2 else dlookup ps k

/-- `k in d` membership test. -/
def dhas {κ α : Type} [DecidableEq κ] (m : List (κ × α)) (k : κ) : Bool :=
  (dlookup m k).isSome

/-- `d[k] = v` assignment: replaces the value in place when `k` is present,
appends `(k, v)` otherwise (CPython dict semantics). -/
def dset {κ α : Type} [DecidableEq κ] : List (κ × α) → κ → α → List (κ × α)
  | [], k, v => [(k, v)]
  | p :: ps, k, v => if p.1 = k then (k, v) :: ps else p :: dset ps k v

/-- Deletion of a key from a dict. -/
def ddel {κ α : Type} [DecidableEq κ] (m : List (κ × α)) (k : κ) : List (κ × α) :=
  m.filter (fun p => p.1 ≠ k)

/-- The keys of a dict, in order. -/
def dkeys {κ α : Type} (m : List (κ × α)) : List κ := m.map Prod.fst

/-- The dict has no duplicate keys (every real Python dict satisfies this). -/
abbrev NodupKeys {κ α : Type} (m : List (κ × α)) : Prop := (dkeys m).Nodup

/-! ### Basic dict lemmas -/

theorem dlookup_append {κ α : Type} [DecidableEq κ] (m n : List (κ × α)) (k : κ) :
    dlookup (m ++ n) k = ((dlookup m k).elim (dlookup n k) some) := by
  induction m with
  | nil => simp [dlookup]
  | cons p ps ih =>
      by_cases h : p.1 = k <;> simp [dlookup, h, ih]

theorem dlookup_eq_none_of_not_mem {κ α : Type} [DecidableEq κ]
    (m : List (κ × α)) (k : κ) (h : k ∉ dkeys m) : dlookup m k = none := by
  induction m with
  | nil => rfl
  | cons p ps ih =>
      simp only [dkeys, List.map_cons, List.mem_cons] at h
      push_neg at h
      have h1 : ¬p.1 = k := fun hh => h.1 hh.symm
      simp [dlookup, h1, ih (by simpa [dkeys] using h.2)]

theorem dlookup_dset {κ α : Type} [DecidableEq κ] (m : List (κ × α)) (k : κ)
    (v : α) (k' : κ) :
    dlookup (dset m k v) k' = if k' = k then some v else dlookup m k' := by
  induction m with
  | nil =>
      by_cases h : k' = k
      · subst h; simp [dset, dlookup]
      · have : ¬k = k' := fun hh => h hh.symm
        simp [dset, dlookup, h, this]
  | cons p ps ih =>
      by_cases hp : p.1 = k
      · by_cases hk' : k' = k
        · subst hk'; simp [dset, dlookup, hp]
        · have : ¬k = k' := fun hh => hk' hh.symm
          have hp' : ¬p.1 = k' := by rw [hp]; exact this
          simp [dset, dlookup, hp, hp', this, hk']
      · by_cases hq : p.1 = k'
        · have : ¬k' = k := by rw [← hq]; exact hp
          simp [dset, dlookup, hp, hq, this]
        · simp [dset, dlookup, hp, hq, ih]

theorem dkeys_dset_of_not_has {κ α : Type} [DecidableEq κ] (m : List (κ × α))
    (k : κ) (v : α) (h : dhas m k = false) :
    dkeys (dset m k v) = dkeys m ++ [k] := by
  induction m with
  | nil => simp [dset, dkeys]
  | cons p ps ih =>
      have hp : ¬p.1 = k := by
        intro hh
        simp [dhas, dlookup, hh] at h
      have hps : dhas ps k = false := by
        simpa [dhas, dlookup, hp] using h
      simp [dset, dkeys, hp, ih hps, dkeys] at ih ⊢
      exact ih hps

theorem dkeys_dset_of_has {κ α : Type} [DecidableEq κ] (m : List (κ × α))
    (k : κ) (v : α) (h : dhas m k = true) :
    dkeys (dset m k v) = dkeys m := by
  induction m with
  | nil => simp [dhas, dlookup] at h
  | cons p ps ih =>
      by_cases hp : p.1 = k
      · simp [dset, dkeys, hp]
      · have hps : dhas ps k = true := by
          simpa [dhas, dlookup, hp] using h
        simp [dset, dkeys, hp] at ih ⊢
        exact ih hps

/-! ### Character-level string helpers (Python `str` methods) -/

/-- Python `s.split(sep)` for a one-character separator: splits on every
occurrence; `"".split(sep) == [""]`. -/
def splitC (sep : Char) : Str → List Str
  | [] => [[]]
  | c :: cs =>
      match splitC sep cs with
      | [] => if c = sep then [[], []] else [[c]]
      | h :: t => if c = sep then [] :: h :: t else (c :: h) :: t

/-- Python `s.split(sep, 1)` for a one-character separator: `none` models the
`ValueError` of unpacking a splitless result into two names. -/
def splitFirstC (sep : Char) : Str → Option (Str × Str)
  | [] => none
  | c :: cs =>
      if c = sep then some ([], cs)
      else (splitFirstC sep cs).map (fun p => (c :: p.1, p.2))

/-- Python `sep.join(parts)` for a one-character separator. -/
def joinC (sep : Char) : List Str → Str
  | [] => []
  | [p] => p
  | p :: q :: qs => p ++ sep :: joinC sep (q :: qs)

/-- Python `s.endswith("@")`. -/
def endsAt (s : Str) : Bool := s.getLast? == some '@'

/-- Python `s.upper()` (ASCII). -/
def strUpper (s : Str) : Str := s.map Char.toUpper

theorem splitC_never_nil (sep : Char) (s : Str) : splitC sep s ≠ [] := by
  cases s with
  | nil => simp [splitC]
  | cons c cs =>
      cases h : splitC sep cs with
      | nil => by_cases hc : c = sep <;> simp [splitC, h, hc]
      | cons a t => by_cases hc : c = sep <;> simp [splitC, h, hc]

/-- Splitting a separator-free string returns the one-element list. -/
theorem splitC_no_sep (sep : Char) (s : Str) (h : sep ∉ s) :
    splitC sep s = [s] := by
  induction s with
  | nil => rfl
  | cons c cs ih =>
      simp only [List.mem_cons] at h
      push_neg at h
      have := ih h.2
      simp [splitC, this, Ne.symm h.1]

/-- Splitting at the first separator occurrence after a separator-free prefix. -/
theorem splitC_sep_append (sep : Char) (a b : Str) (ha : sep ∉ a) :
    splitC sep (a ++ sep :: b) = a :: splitC sep b := by
  induction a with
  | nil =>
      cases h : splitC sep b with
      | nil => exact absurd h (splitC_never_nil sep b)
      | cons x t => simp [splitC, h]
  | cons c cs ih =>
      simp only [List.mem_cons] at ha
      push_neg at ha
      have := ih ha.2
      simp [splitC, this, Ne.symm ha.1]

/-- `join` then `split` is the identity on nonempty lists of separator-free
parts. -/
theorem splitC_joinC (sep : Char) (parts : List Str) (hne : parts ≠ [])
    (hfree : ∀ p ∈ parts, sep ∉ p) : splitC sep (joinC sep parts) = parts := by
  induction parts with
  | nil => exact absurd rfl hne
  | cons p ps ih =>
      cases ps with
      | nil =>
          simp only [joinC]
          exact splitC_no_sep sep p (hfree p (by simp))
      | cons q qs =>
          have hjoin : joinC sep (p :: q :: qs) = p ++ sep :: joinC sep (q :: qs) := by
            simp [joinC]
          rw [hjoin, splitC_sep_append sep p _ (hfree p (by simp))]
          rw [ih (by simp) (fun r hr => hfree r (by simp [hr]))]

theorem splitFirstC_of_append (sep : Char) (a b : Str) (ha : sep ∉ a) :
    splitFirstC sep (a ++ sep :: b) = some (a, b) := by
  induction a with
  | nil => simp [splitFirstC]
  | cons c cs ih =>
      simp only [List.mem_cons] at ha
      push_neg at ha
      simp [splitFirstC, Ne.symm ha.1, ih ha.2]

theorem splitFirstC_isSome_of_mem (sep : Char) (s : Str) (h : sep ∈ s) :
    (splitFirstC sep s).isSome := by
  induction s with
  | nil => simp at h
  | cons c cs ih =>
      by_cases hc : c = sep
      · simp [splitFirstC, hc]
      · have : sep ∈ cs := by
          rcases List.mem_cons.mp h with h1 | h2
          · exact absurd h1.symm hc
          · exact h2
        have := ih this
        simp only [splitFirstC, hc, if_neg, not_false_iff]
        cases hs : splitFirstC sep cs with
        | none => rw [hs] at this; simp at this
        | some p => simp

theorem splitFirstC_eq_none_of_not_mem (sep : Char) (s : Str) (h : sep ∉ s) :
    splitFirstC sep s = none := by
  induction s with
  | nil => rfl
  | cons c cs ih =>
      simp only [List.mem_cons] at h
      push_neg at h
      simp [splitFirstC, Ne.symm h.1, ih h.2]

/-! ### The typed row model (`ConfigDBConnector` TypeCodec)

A row value is a mapping from field name to either a scalar string or an
ordered list of strings (`configdb.py`, `raw_to_typed`/`typed_to_raw`). -/

/-- A typed field value: Python `str` or `list` of `str`. -/
inductive TVal : Type
  | s (v : Str)
  | l (vs : List Str)
deriving DecidableEq

/-- A typed row: field name to typed value, a Python dict. -/
abbrev TypedRow := List (Str × TVal)

/-- A raw Redis hash: field name to string value. -/
abbrev RawHash := List (Str × Str)

/-- The reserved sentinel field name/value `"NULL"`. -/
def NULLf : Str := str "NULL"

/-- `ConfigDBConnector.raw_to_typed` on a (non-`None`) raw hash: the field
named `"NULL"` is dropped, a field ending in `"@"` is split on commas into a
list under the trimmed name, all others pass through as scalars. -/
def raw_to_typed (raw : RawHash) : TypedRow :=
  raw.foldl
    (fun typed_data p =>
      if p.1 = NULLf then typed_data
      else if endsAt p.1 then dset typed_data p.1.dropLast (TVal.l (splitC ',' p.2))
      else dset typed_data p.1 (TVal.s p.2))
    []

/-- `ConfigDBConnector.typed_to_raw` on a (non-`None`) typed row: `{}` becomes
the `{"NULL": "NULL"}` sentinel, a list value is joined by commas and stored
under the `"@"`-suffixed name, scalars pass through. -/
def typed_to_raw (typed_data : TypedRow) : RawHash :=
  if typed_data = [] then [(NULLf, NULLf)]
  else
    typed_data.foldl
      (fun raw_data p =>
        match p.2 with
        | TVal.l vs => dset raw_data (p.1 ++ ['@']) (joinC ',' vs)
        | TVal.s v => dset raw_data p.1 v)
      []

/-- Python `==` on dicts: same keys, same values, order irrelevant. -/
def dictEqb {κ α : Type} [DecidableEq κ] [DecidableEq α]
    (a b : List (κ × α)) : Bool :=
  (a.all fun p => dlookup b p.1 == some p.2) &&
  (b.all fun p => dlookup a p.1 == some p.2)

/-- The encoding `typed_to_raw` applies to one field of a nonempty row. -/
def encodeField (p : Str × TVal) : Str × Str :=
  match p.2 with
  | TVal.l vs => (p.1 ++ ['@'], joinC ',' vs)
  | TVal.s v => (p.1, v)

/-- The round-trip restriction under which decoding inverts encoding: no field
name ends in `"@"`, no scalar field is named `"NULL"`, and every list value is
nonempty with comma-free elements. -/
def FieldWF (p : Str × TVal) : Prop :=
  ¬endsAt p.1 = true ∧
    (match p.2 with
     | TVal.s _ => p.1 ≠ NULLf
     | TVal.l vs => vs ≠ [] ∧ ∀ e ∈ vs, ',' ∉ e)

instance (p : Str × TVal) : Decidable (FieldWF p) := by
  unfold FieldWF
  cases p.2 <;> exact inferInstance

/-- Exactly the restriction stated by the spec's round-trip contract: field
names do not end in `"@"` and list elements contain no commas. -/
def SpecWF (p : Str × TVal) : Prop :=
  ¬endsAt p.1 = true ∧
    (match p.2 with
     | TVal.s _ => True
     | TVal.l ws => ∀ e ∈ ws, ',' ∉ e)

instance (p : Str × TVal) : Decidable (SpecWF p) := by
  unfold SpecWF
  cases p.2 <;> exact inferInstance

/-! ### Round-trip helper lemmas -/

theorem endsAt_concat_at (k : Str) : endsAt (k ++ ['@']) = true := by
  simp [endsAt, List.getLast?_concat]

theorem concat_at_ne_NULLf (k : Str) : k ++ ['@'] ≠ NULLf := by
  intro h
  have h1 : endsAt (k ++ ['@']) = true := endsAt_concat_at k
  rw [h] at h1
  exact absurd h1 (by decide)

/-- Assigning a fresh key appends the pair at the end. -/
theorem dset_fresh_append {κ α : Type} [DecidableEq κ] (m : List (κ × α))
    (k : κ) (v : α) (h : dhas m k = false) : dset m k v = m ++ [(k, v)] := by
  induction m with
  | nil => simp [dset]
  | cons q qs ih =>
      have hq : ¬q.1 = k := by
        intro hh
        simp [dhas, dlookup, hh] at h
      have hqs : dhas qs k = false := by
        simpa [dhas, dlookup, hq] using h
      simp [dset, hq, ih hqs]

/-- A fold of fresh-key `dset` assignments is an append of the mapped list. -/
theorem foldl_dset_fresh {κ α β : Type} [DecidableEq κ] (f : β → κ × α)
    (l : List β) (init : List (κ × α))
    (hfresh : ∀ b ∈ l, dhas init (f b).1 = false)
    (hnodup : (l.map (fun b => (f b).1)).Nodup) :
    l.foldl (fun acc b => dset acc (f b).1 (f b).2) init = init ++ l.map f := by
  induction l generalizing init with
  | nil => simp
  | cons b bs ih =>
      simp only [List.map_cons, List.nodup_cons, List.mem_map] at hnodup
      have hb : dhas init (f b).1 = false := hfresh b (by simp)
      simp only [List.foldl_cons, dset_fresh_append init (f b).1 (f b).2 hb]
      rw [ih (init ++ [f b])
        (fun c hc => by
          have h1 : dhas init (f c).1 = false := hfresh c (by simp [hc])
          have h2 : ¬(f b).1 = (f c).1 := by
            intro hh
            exact hnodup.1 ⟨c, hc, hh.symm⟩
          simp only [dhas] at h1 ⊢
          rw [dlookup_append]
          have := Option.not_isSome_iff_eq_none.mp
            (by simp [h1] : ¬(dlookup init (f c).1).isSome = true)
          simp [this, dlookup, h2])
        hnodup.2]
      simp

/-- A fold of plain `dset` assignments over a duplicate-free dict rebuilds it. -/
theorem foldl_dset_self {κ α : Type} [DecidableEq κ] (l : List (κ × α))
    (init : List (κ × α)) (hfresh : ∀ p ∈ l, dhas init p.1 = false)
    (hnodup : (l.map Prod.fst).Nodup) :
    l.foldl (fun acc p => dset acc p.1 p.2) init = init ++ l := by
  induction l generalizing init with
  | nil => simp
  | cons b bs ih =>
      simp only [List.map_cons, List.nodup_cons, List.mem_map] at hnodup
      have hb : dhas init b.1 = false := hfresh b (by simp)
      simp only [List.foldl_cons, dset_fresh_append init b.1 b.2 hb]
      rw [ih (init ++ [(b.1, b.2)])
        (fun c hc => by
          have h1 : dhas init c.1 = false := hfresh c (by simp [hc])
          have h2 : ¬b.1 = c.1 := by
            intro hh
            exact hnodup.1 ⟨c, hc, hh.symm⟩
          simp only [dhas] at h1 ⊢
          rw [dlookup_append]
          have := Option.not_isSome_iff_eq_none.mp
            (by simp [h1] : ¬(dlookup init c.1).isSome = true)
          simp [this, dlookup, h2])
        hnodup.2]
      simp

/-- Step congruence for `foldl`. -/
theorem foldl_congr_mem {α β : Type} (l : List β) (f g : α → β → α) (a : α)
    (h : ∀ x, ∀ b ∈ l, f x b = g x b) : l.foldl f a = l.foldl g a := by
  induction l generalizing a with
  | nil => rfl
  | cons b bs ih =>
      simp only [List.foldl_cons, h a b (by simp)]
      exact ih (g a b) (fun x c hc => h x c (by simp [hc]))

/-- Encoded field names of a well-formed duplicate-free row are duplicate-free. -/
theorem encoded_keys_nodup (row : TypedRow) (hnodup : NodupKeys row)
    (hwf : ∀ p ∈ row, FieldWF p) :
    (row.map (fun p => (encodeField p).1)).Nodup := by
  induction row with
  | nil => simp
  | cons p ps ih =>
      simp only [NodupKeys, dkeys, List.map_cons, List.nodup_cons, List.mem_map] at hnodup
      simp only [List.map_cons, List.nodup_cons, List.mem_map]
      constructor
      · rintro ⟨q, hq, hqp⟩
        have hkey : q.1 ≠ p.1 := by
          intro hh
          exact hnodup.1 ⟨q, hq, hh⟩
        have hwp := hwf p (by simp)
        have hwq := hwf q (by simp [hq])
        -- the two encoded names collide only if the raw names collide
        unfold encodeField at hqp
        rcases hvp : p.2 with v | vs <;> rcases hvq : q.2 with w | ws <;>
          rw [hvp, hvq] at hqp <;> simp only at hqp
        · exact hkey hqp
        · -- q encodes to q.1 ++ "@", p is scalar: p.1 cannot end in "@"
          have : endsAt p.1 = true := by
            rw [← hqp]; exact endsAt_concat_at q.1
          exact hwp.1 this
        · have : endsAt q.1 = true := by
            rw [hqp]; exact endsAt_concat_at p.1
          exact hwq.1 this
        · exact hkey (by simpa using hqp)
      · exact ih (by simpa [NodupKeys, dkeys] using hnodup.2) (fun q hq => hwf q (by simp [hq]))

/-- claim C1 (counterexample): the round-trip contract as stated fails on the
row `{"L": []}`, which satisfies its stated restrictions (no `"@"`-suffixed
field name, no comma in any list element) yet decodes to `{"L": [""]}` because
`",".join([]) == ""` and `"".split(",") == [""]`. -/
theorem raw_to_typed_typed_to_raw_not_id :
    (∀ p ∈ [((str "L"), TVal.l [])], SpecWF p) ∧
    NodupKeys [((str "L"), TVal.l [])] ∧
    dictEqb (raw_to_typed (typed_to_raw [((str "L"), TVal.l [])]))
      [((str "L"), TVal.l [])] = false := by
  refine ⟨?_, ?_, ?_⟩
  · decide
  · decide
  · decide

/-- claim C1 (amended): decoding inverts encoding for every duplicate-free row
whose field names do not end in `"@"`, whose scalar fields are not named
`"NULL"`, and whose list values are nonempty with comma-free elements; the
empty row goes through the `{"NULL": "NULL"}` sentinel and decodes back to the
empty row. -/
theorem raw_to_typed_typed_to_raw (row : TypedRow) (hnodup : NodupKeys row)
    (hwf : ∀ p ∈ row, FieldWF p) :
    raw_to_typed (typed_to_raw row) = row := by
  by_cases hrow : row = []
  · subst hrow; decide
  · -- encoding is a plain map over the fields
    have henc : typed_to_raw row = row.map encodeField := by
      unfold typed_to_raw
      rw [if_neg hrow]
      rw [foldl_congr_mem row _
        (fun acc p => dset acc (encodeField p).1 (encodeField p).2) []
        (fun acc p _ => by cases hp : p.2 <;> simp [encodeField, hp])]
      rw [foldl_dset_fresh encodeField row [] (by intro b _; rfl)
        (encoded_keys_nodup row hnodup hwf)]
      simp
    rw [henc]
    -- decoding undoes the per-field encoding
    unfold raw_to_typed
    rw [List.foldl_map]
    rw [foldl_congr_mem row _ (fun acc p => dset acc p.1 p.2) []
      (fun acc p hp => by
        have hw := hwf p hp
        rcases hv : p.2 with v | vs
        · have h1 : ¬p.1 = NULLf := by
            have := hw.2; rw [hv] at this; exact this
          have h2 : ¬endsAt p.1 = true := hw.1
          simp [encodeField, hv, h1, h2]
        · have hvs : vs ≠ [] ∧ ∀ e ∈ vs, ',' ∉ e := by
            have := hw.2; rw [hv] at this; exact this
          have h1 : ¬(p.1 ++ ['@']) = NULLf := concat_at_ne_NULLf p.1
          simp [encodeField, hv, h1, endsAt_concat_at, List.dropLast_concat,
            splitC_joinC ',' vs hvs.1 hvs.2])]
    rw [foldl_dset_self row [] (by intro b _; rfl) (by simpa [NodupKeys, dkeys] using hnodup)]
    simp

/-- claim C1 (witness): the round trip holds at a concrete well-formed row with
a scalar field and a list field. -/
theorem raw_to_typed_typed_to_raw_witness :
    NodupKeys [((str "a"), TVal.s (str "1")), ((str "L"), TVal.l [str "x", str "y"])] ∧
    (∀ p ∈ [((str "a"), TVal.s (str "1")), ((str "L"), TVal.l [str "x", str "y"])], FieldWF p) ∧
    raw_to_typed (typed_to_raw
        [((str "a"), TVal.s (str "1")), ((str "L"), TVal.l [str "x", str "y"])]) =
      [((str "a"), TVal.s (str "1")), ((str "L"), TVal.l [str "x", str "y"])] :=
  ⟨by decide, by decide,
    raw_to_typed_typed_to_raw _ (by decide) (by decide)⟩

/-! ### The store model

A Redis database is a mapping from key strings to hashes, insertion-ordered.
Only the commands the table layer uses are modelled: `HGETALL`, `HMSET`,
`HDEL`, `DEL`, `KEYS pattern`, and cursor-based `SCAN` (below, for the
pipelined connector). In Redis a hash with zero fields does not exist, so
deleting the last field of a hash removes its key. Glob patterns appear only
as `'*'` (match everything) and `'{TABLE}{sep}*'` (prefix match); they are
modelled accordingly, which is exact for names free of glob metacharacters. -/

abbrev Store := List (Str × RawHash)

/-- `ConfigDBConnector.INIT_INDICATOR`. -/
def INIT_INDICATOR : Str := str "CONFIG_DB_INITIALIZED"

/-- The CONFIG_DB table-name/key separator `'|'`. -/
def SEP : Char := '|'

/-- `client.hgetall(key)`: the empty dict when the key is absent. -/
def hgetall (s : Store) (k : Str) : RawHash := (dlookup s k).getD []

/-- Setting each field of `fs` in hash `h`, in order. -/
def hmsetHash (h fs : RawHash) : RawHash :=
  fs.foldl (fun acc p => dset acc p.1 p.2) h

/-- `client.hmset(key, fs)`: merges the fields into the hash, creating the key
(at the end of the keyspace) when absent. `fs` is never empty at call sites. -/
def storeHmset (s : Store) (k : Str) (fs : RawHash) : Store :=
  dset s k (hmsetHash (hgetall s k) fs)

/-- `client.hdel(key, field)`: removes one field; a hash left with no fields
no longer exists. -/
def storeHdel (s : Store) (k f : Str) : Store :=
  match dlookup s k with
  | none => s
  | some h =>
      let h' := ddel h f
      if h' = [] then ddel s k else dset s k h'

/-- `client.delete(key)`. -/
def storeDel (s : Store) (k : Str) : Store := ddel s k

/-! ### KeyCodec (`serialize_key` / `deserialize_key`) -/

/-- A logical row key: a scalar string or a tuple of parts. -/
inductive RKey : Type
  | scalar (k : Str)
  | tup (parts : List Str)
deriving DecidableEq

/-- `ConfigDBConnector.serialize_key(key, separator)`: a tuple is joined by
the separator, a scalar passes through (`str` of a string). -/
def serialize_key (key : RKey) (separator : Char) : Str :=
  match key with
  | RKey.tup parts => joinC separator parts
  | RKey.scalar k => k

/-- `ConfigDBConnector.deserialize_key(key, separator)`: split on the
separator; a tuple exactly when there is more than one token, else the raw
scalar. -/
def deserialize_key (key : Str) (separator : Char) : RKey :=
  let tokens := splitC separator key
  if tokens.length > 1 then RKey.tup tokens else RKey.scalar key

/-- The composed hash identifier `'{TABLE.upper()}{sep}{serialized-key}'`. -/
def hashName (table : Str) (key : RKey) : Str :=
  strUpper table ++ SEP :: serialize_key key SEP

/-! ### TableStore (`ConfigDBConnector` entry/table/config operations) -/

/-- `ConfigDBConnector.get_entry`: decode the hash at the composed key; an
absent hash gives the empty row. -/
def get_entry (s : Store) (table : Str) (key : RKey) : TypedRow :=
  raw_to_typed (hgetall s (hashName table key))

/-- `ConfigDBConnector.set_entry`: `None` deletes the hash; otherwise read the
current row, write the encoded fields, then delete every field of the current
row absent from the new data, suffixing `"@"` for list-valued fields. -/
def set_entry (s : Store) (table : Str) (key : RKey) (data : Option TypedRow) :
    Store :=
  let _hash := hashName table key
  match data with
  | none => storeDel s _hash
  | some d =>
      let original := get_entry s table key
      let s1 := storeHmset s _hash (typed_to_raw d)
      (original.filter (fun p => ¬dhas d p.1)).foldl
        (fun st p =>
          let fname := match p.2 with
            | TVal.l _ => p.1 ++ ['@']
            | TVal.s _ => p.1
          storeHdel st _hash fname)
        s1

/-- `ConfigDBConnector.mod_entry`: `None` deletes the hash; otherwise a pure
`HMSET` upsert of the encoded fields. -/
def mod_entry (s : Store) (table : Str) (key : RKey) (data : Option TypedRow) :
    Store :=
  let _hash := hashName table key
  match data with
  | none => storeDel s _hash
  | some d => storeHmset s _hash (typed_to_raw d)

/-- The key prefix `'{TABLE.upper()}{sep}'` of a table. -/
def prefixOf (table : Str) : Str := strUpper table ++ [SEP]

/-- Whether a key matches the glob `'{TABLE.upper()}{sep}*'`. -/
def tablePat (table : Str) (k : Str) : Bool := (prefixOf table).isPrefixOf k

/-- The keys matching the glob `'{TABLE.upper()}{sep}*'`, in keyspace order. -/
def tableKeys (s : Store) (table : Str) : List Str :=
  (dkeys s).filter (tablePat table)

/-- `ConfigDBConnector.get_table`: decode every hash under the table prefix;
keys without a separator would be skipped (they cannot match the prefix). -/
def get_table (s : Store) (table : Str) : List (RKey × TypedRow) :=
  (tableKeys s table).foldl
    (fun data k =>
      let entry := raw_to_typed (hgetall s k)
      match splitFirstC SEP k with
      | none => data
      | some (_, row) => dset data (deserialize_key row SEP) entry)
    []

/-- `ConfigDBConnector.delete_table`: delete every key under the table
prefix. -/
def delete_table (s : Store) (table : Str) : Store :=
  (tableKeys s table).foldl storeDel s

/-- One table of a configuration snapshot: row key to (possibly `None`) row. -/
abbrev TableData := List (RKey × Option TypedRow)

/-- A whole-store write request, table by table; `None` deletes the table. -/
abbrev CfgData := List (Str × Option TableData)

/-- A whole-store snapshot as returned by `get_config`. -/
abbrev Snap := List (Str × List (RKey × TypedRow))

instance instDecEqSnapRow : DecidableEq (Str × List (RKey × TypedRow)) :=
  inferInstance

instance instDecEqSnap : DecidableEq Snap := instDecidableEqList

instance instDecEqStoreSnaps : DecidableEq (Store × List Snap) :=
  instDecidableEqProd

/-- The body of `mod_config`'s per-table loop: a `None` table deletes the
table, otherwise each row is `mod_entry`-ed (a `None` row deletes the row). -/
def naiveTableOp (st : Store) (p : Str × Option TableData) : Store :=
  match p.2 with
  | none => delete_table st p.1
  | some rows => rows.foldl (fun st2 q => mod_entry st2 p.1 q.1 q.2) st

/-- `ConfigDBConnector.mod_config`: write every table; a `None` table deletes
the table, a `None` row deletes the row; nothing else is removed. -/
def mod_config (s : Store) (data : CfgData) : Store :=
  data.foldl naiveTableOp s

/-- `data.setdefault(table, {})[key] = entry`. -/
def snapInsert (data : Snap) (t : Str) (rk : RKey) (e : TypedRow) : Snap :=
  match dlookup data t with
  | some tbl => dset data t (dset tbl rk e)
  | none => data ++ [(t, [(rk, e)])]

/-- The per-key step of `get_config`: split off the table name; a key without
a separator raises `ValueError`, which `get_config` catches and ignores. -/
def getCfgStep (s : Store) (data : Snap) (k : Str) : Snap :=
  match splitFirstC SEP k with
  | none => data
  | some (t, row) =>
      snapInsert data t (deserialize_key row SEP) (raw_to_typed (hgetall s k))

/-- `ConfigDBConnector.get_config`: enumerate all keys; keys without a
separator (including the init indicator) are skipped via the `ValueError`
handler. -/
def get_config (s : Store) : Snap :=
  (dkeys s).foldl (getCfgStep s) []

/-! ### Further dict/store lemmas -/

theorem dlookup_ddel {κ α : Type} [DecidableEq κ] (m : List (κ × α)) (k k' : κ) :
    dlookup (ddel m k) k' = if k' = k then none else dlookup m k' := by
  induction m with
  | nil => simp [ddel, dlookup]
  | cons p ps ih =>
      by_cases hp : p.1 = k
      · have h1 : ddel (p :: ps) k = ddel ps k := by
          simp [ddel, List.filter_cons, hp]
        rw [h1, ih]
        by_cases hk : k' = k
        · simp [hk]
        · have hpk' : ¬p.1 = k' := by rw [hp]; exact fun hh => hk hh.symm
          simp [hk, dlookup, hpk']
      · have h1 : ddel (p :: ps) k = p :: ddel ps k := by
          simp [ddel, List.filter_cons, hp]
        rw [h1]
        by_cases hq : p.1 = k'
        · have hk : ¬k' = k := by rw [← hq]; exact hp
          simp [dlookup, hq, hk]
        · simp [dlookup, hq, ih]

/-- `HMSET` lookup: fields in the update win, others are preserved. -/
theorem dlookup_hmsetHash (h fs : RawHash) (f : Str) (hnodup : NodupKeys fs) :
    dlookup (hmsetHash h fs) f = (dlookup fs f).elim (dlookup h f) some := by
  induction fs generalizing h with
  | nil => simp [hmsetHash, dlookup]
  | cons p ps ih =>
      simp only [NodupKeys, dkeys, List.map_cons, List.nodup_cons, List.mem_map] at hnodup
      have step : hmsetHash h (p :: ps) = hmsetHash (dset h p.1 p.2) ps := by
        simp [hmsetHash]
      rw [step, ih (dset h p.1 p.2) hnodup.2]
      cases hps : dlookup ps f with
      | some v =>
          have hf : f ∈ dkeys ps := by
            by_contra hc
            rw [dlookup_eq_none_of_not_mem ps f hc] at hps
            exact Option.noConfusion hps
          have hp1 : ¬p.1 = f := by
            intro hh
            rcases List.mem_map.mp hf with ⟨q, hq, hq1⟩
            exact hnodup.1 ⟨q, hq, by rw [hq1, ← hh]⟩
          simp [dlookup, hp1, hps]
      | none =>
          rw [dlookup_dset]
          simp only [dlookup]
          by_cases hf : f = p.1
          · simp [hf]
          · have hf2 : ¬p.1 = f := fun hh => hf hh.symm
            simp [hf, hf2, hps]

/-- claim C8: `get_entry` on an absent hash returns the empty row and raises
no error, and `set_entry` with `None` data deletes the underlying store key so
that it no longer exists (and a subsequent `get_entry` returns the empty
row). -/
theorem get_entry_absent_and_set_entry_none (s : Store) (table : Str) (key : RKey) :
    (dlookup s (hashName table key) = none → get_entry s table key = []) ∧
    dlookup (set_entry s table key none) (hashName table key) = none ∧
    get_entry (set_entry s table key none) table key = [] := by
  refine ⟨?_, ?_, ?_⟩
  · intro h
    simp [get_entry, hgetall, h, raw_to_typed]
  · simp [set_entry, storeDel, dlookup_ddel]
  · simp [get_entry, set_entry, storeDel, hgetall, dlookup_ddel, raw_to_typed]

/-- claim C8 (witness): on the empty store the absent-entry read returns the
empty row. -/
theorem get_entry_absent_and_set_entry_none_witness :
    get_entry [] (str "PORT") (RKey.scalar (str "Ethernet0")) = [] :=
  (get_entry_absent_and_set_entry_none [] (str "PORT")
    (RKey.scalar (str "Ethernet0"))).1 (by decide)

/-- claim C9: `deserialize_key` splits the raw key on the separator and
returns a tuple exactly when there is more than one part, otherwise the raw
scalar; consequently `get_table` on a row written under the key
`("k1", "k2")` returns a mapping keyed by the tuple `("k1", "k2")`,
reconstructed from the stored string `"k1|k2"` (the full stored key being
`"TEST|k1|k2"`). -/
theorem deserialize_key_split_and_composite_get_table :
    (∀ (key : Str) (separator : Char),
      deserialize_key key separator =
        if (splitC separator key).length > 1 then RKey.tup (splitC separator key)
        else RKey.scalar key) ∧
    dkeys (set_entry [] (str "TEST") (RKey.tup [str "k1", str "k2"])
        (some [(str "f", TVal.s (str "v"))])) = [str "TEST|k1|k2"] ∧
    get_table (set_entry [] (str "TEST") (RKey.tup [str "k1", str "k2"])
        (some [(str "f", TVal.s (str "v"))])) (str "TEST") =
      [(RKey.tup [str "k1", str "k2"], [(str "f", TVal.s (str "v"))])] := by
  refine ⟨fun key separator => rfl, ?_, ?_⟩
  · decide
  · decide

/-- claim C3: `mod_entry` with data is a pure upsert — at the written hash a
field of the encoded data gets its new value and every other field keeps its
old value, every other store key is untouched — `mod_entry` with `None`
deletes the whole hash, and the documented sequence
`mod_entry(t,k,{a:"1",b:"2"}); mod_entry(t,k,{a:"3"})` leaves
`get_entry(t,k) = {a:"3", b:"2"}`. -/
theorem mod_entry_upsert (s : Store) (table : Str) (key : RKey) (d : TypedRow)
    (f k' : Str) (hnodup : NodupKeys (typed_to_raw d))
    (hk' : k' ≠ hashName table key) :
    dlookup (hgetall (mod_entry s table key (some d)) (hashName table key)) f
      = (dlookup (typed_to_raw d) f).elim
          (dlookup (hgetall s (hashName table key)) f) some ∧
    dlookup (mod_entry s table key (some d)) k' = dlookup s k' ∧
    dlookup (mod_entry s table key none) (hashName table key) = none ∧
    get_entry
        (mod_entry
          (mod_entry [] (str "T") (RKey.scalar (str "k"))
            (some [(str "a", TVal.s (str "1")), (str "b", TVal.s (str "2"))]))
          (str "T") (RKey.scalar (str "k"))
          (some [(str "a", TVal.s (str "3"))]))
        (str "T") (RKey.scalar (str "k"))
      = [(str "a", TVal.s (str "3")), (str "b", TVal.s (str "2"))] := by
  refine ⟨?_, ?_, ?_, ?_⟩
  · have h1 : hgetall (mod_entry s table key (some d)) (hashName table key)
        = hmsetHash (hgetall s (hashName table key)) (typed_to_raw d) := by
      simp [mod_entry, storeHmset, hgetall, dlookup_dset]
    rw [h1, dlookup_hmsetHash _ _ _ hnodup]
  · simp [mod_entry, storeHmset, dlookup_dset, hk']
  · simp [mod_entry, storeDel, dlookup_ddel]
  · decide

/-- claim C3 (witness): the upsert facts at a concrete store, table, key, row
and field. -/
theorem mod_entry_upsert_witness :
    NodupKeys (typed_to_raw [(str "x", TVal.s (str "7"))]) ∧
    str "OTHER" ≠ hashName (str "T") (RKey.scalar (str "k")) ∧
    dlookup (hgetall (mod_entry [] (str "T") (RKey.scalar (str "k"))
        (some [(str "x", TVal.s (str "7"))])) (hashName (str "T") (RKey.scalar (str "k"))))
        (str "x")
      = (dlookup (typed_to_raw [(str "x", TVal.s (str "7"))]) (str "x")).elim
          (dlookup (hgetall [] (hashName (str "T") (RKey.scalar (str "k")))) (str "x")) some :=
  ⟨by decide, by decide,
    (mod_entry_upsert [] (str "T") (RKey.scalar (str "k"))
      [(str "x", TVal.s (str "7"))] (str "x") (str "OTHER")
      (by decide) (by decide)).1⟩

/-- claim C2: evaluation of the code at the failing input. The claim states
that after `set_entry` a `get_entry` returns exactly the new data with no
stale fields, but after the reachable sequence `set_entry(T,k,{a:"1"})`,
`set_entry(T,k,{a:["x"]})`, `set_entry(T,k,{b:"2"})` (all inputs well-formed)
the raw hash holds `{a:"1", b:"2"}` and `get_entry` returns
`{a:"1", b:"2"}` — the stale scalar field `a` survives, because the second
call leaves both raw fields `a` and `a@` behind and the third call's
read-diff-delete step deletes only `a@` (the decoded value of `a` is the
list, so the `"@"` suffix is appended when deleting). This contradicts the
code's own docstring "Remove extra fields in the db which are not in the
data." -/
theorem set_entry_stale_field_bug :
    get_entry
        (set_entry
          (set_entry
            (set_entry [] (str "T") (RKey.scalar (str "k"))
              (some [(str "a", TVal.s (str "1"))]))
            (str "T") (RKey.scalar (str "k"))
            (some [(str "a", TVal.l [str "x"])]))
          (str "T") (RKey.scalar (str "k"))
          (some [(str "b", TVal.s (str "2"))]))
        (str "T") (RKey.scalar (str "k"))
      = [(str "a", TVal.s (str "1")), (str "b", TVal.s (str "2"))] ∧
    dhas
        (get_entry
          (set_entry
            (set_entry
              (set_entry [] (str "T") (RKey.scalar (str "k"))
                (some [(str "a", TVal.s (str "1"))]))
              (str "T") (RKey.scalar (str "k"))
              (some [(str "a", TVal.l [str "x"])]))
            (str "T") (RKey.scalar (str "k"))
            (some [(str "b", TVal.s (str "2"))]))
          (str "T") (RKey.scalar (str "k")))
        (str "a") = true := by
  refine ⟨?_, ?_⟩
  · decide
  · decide

/-! ### Clean hashes and the empty-row sentinel (claim C5) -/

/-- A raw hash is clean when no field name appears both bare and with the
`"@"` suffix (every hash produced by encoding well-formed rows afresh is
clean; the C2 sequence shows type-changing writes can break this). -/
def CleanHash (h : RawHash) : Prop :=
  ∀ p ∈ h, dhas h (p.1 ++ ['@']) = false

instance (h : RawHash) : Decidable (CleanHash h) := by
  unfold CleanHash
  exact inferInstance

/-- The decoding `raw_to_typed` applies to one non-`"NULL"` raw field. -/
def decodeField (p : Str × Str) : Str × TVal :=
  if endsAt p.1 then (p.1.dropLast, TVal.l (splitC ',' p.2))
  else (p.1, TVal.s p.2)

theorem dhas_of_mem {κ α : Type} [DecidableEq κ] (m : List (κ × α))
    (p : κ × α) (h : p ∈ m) : dhas m p.1 = true := by
  induction m with
  | nil => simp at h
  | cons q qs ih =>
      rcases List.mem_cons.mp h with h1 | h2
      · subst h1; simp [dhas, dlookup]
      · by_cases hq : q.1 = p.1
        · simp [dhas, dlookup, hq]
        · simpa [dhas, dlookup, hq] using ih h2

theorem ne_nil_of_dhas {κ α : Type} [DecidableEq κ] (m : List (κ × α)) (k : κ)
    (h : dhas m k = true) : m ≠ [] := by
  intro hm
  subst hm
  simp [dhas, dlookup] at h

theorem dset_dset {κ α : Type} [DecidableEq κ] (m : List (κ × α)) (k : κ)
    (v w : α) : dset (dset m k v) k w = dset m k w := by
  induction m with
  | nil => simp [dset]
  | cons p ps ih =>
      by_cases hp : p.1 = k
      · simp [dset, hp]
      · simp [dset, hp, ih]

theorem eq_dropLast_concat_of_endsAt (k : Str) (h : endsAt k = true) :
    k.dropLast ++ ['@'] = k := by
  have h1 : k.getLast? = some '@' := by simpa [endsAt] using h
  exact List.dropLast_append_getLast? _ (by simp [h1])

/-- A fold whose step skips `"NULL"`-named fields equals the fold over the
filtered list. -/
theorem foldl_skip_null {α : Type} (l : RawHash) (g : α → Str × Str → α) (a : α) :
    l.foldl (fun acc p => if p.1 = NULLf then acc else g acc p) a
      = (l.filter (fun p => p.1 ≠ NULLf)).foldl g a := by
  induction l generalizing a with
  | nil => rfl
  | cons p ps ih =>
      by_cases hp : p.1 = NULLf
      · simp [List.filter_cons, hp, ih]
      · simp [List.filter_cons, hp, ih]

/-- Decoded field names of a duplicate-free hash with no bare/`"@"` name pair
are duplicate-free. -/
theorem decoded_keys_nodup_aux (l : RawHash) (hnodup : NodupKeys l)
    (hcl : ∀ p ∈ l, ∀ q ∈ l, q.1 ≠ p.1 ++ ['@']) :
    (l.map (fun p => (decodeField p).1)).Nodup := by
  induction l with
  | nil => simp
  | cons p ps ih =>
      simp only [NodupKeys, dkeys, List.map_cons, List.nodup_cons, List.mem_map] at hnodup
      simp only [List.map_cons, List.nodup_cons, List.mem_map]
      constructor
      · rintro ⟨q, hq, hqp⟩
        have hkey : q.1 ≠ p.1 := by
          intro hh
          exact hnodup.1 ⟨q, hq, hh⟩
        unfold decodeField at hqp
        by_cases hep : endsAt p.1 = true
        · by_cases heq : endsAt q.1 = true
          · -- both end in "@": equal after dropLast means equal
            simp only [hep, heq, if_true] at hqp
            apply hkey
            rw [← eq_dropLast_concat_of_endsAt q.1 heq,
              ← eq_dropLast_concat_of_endsAt p.1 hep, hqp]
          · -- p ends in "@", q does not: then q.1 ++ "@" = p.1 is in the hash
            simp [hep, heq] at hqp
            have : p.1 = q.1 ++ ['@'] := by
              rw [← eq_dropLast_concat_of_endsAt p.1 hep, hqp]
            exact hcl q (by simp [hq]) p (by simp) this
        · by_cases heq : endsAt q.1 = true
          · -- q ends in "@", p does not: then p.1 ++ "@" = q.1 is in the hash
            simp [hep, heq] at hqp
            have : q.1 = p.1 ++ ['@'] := by
              rw [← eq_dropLast_concat_of_endsAt q.1 heq, hqp]
            exact hcl p (by simp) q (by simp [hq]) this
          · simp [hep, heq] at hqp
            exact hkey hqp
      · exact ih (by simpa [NodupKeys, dkeys] using hnodup.2)
          (fun a ha b hb => hcl a (by simp [ha]) b (by simp [hb]))

/-- On a clean duplicate-free hash, decoding is a plain map over the
non-`"NULL"` fields. -/
theorem raw_to_typed_clean (h : RawHash) (hnodup : NodupKeys h)
    (hclean : CleanHash h) :
    raw_to_typed h = (h.filter (fun p => p.1 ≠ NULLf)).map decodeField := by
  have hn : NodupKeys (h.filter (fun p => p.1 ≠ NULLf)) := by
    have hsub : List.Sublist (dkeys (h.filter (fun p => p.1 ≠ NULLf))) (dkeys h) := by
      simpa [dkeys] using List.Sublist.map Prod.fst (List.filter_sublist h)
    exact hsub.nodup hnodup
  have hc : ∀ p ∈ h.filter (fun p => p.1 ≠ NULLf),
      ∀ q ∈ h.filter (fun p => p.1 ≠ NULLf), q.1 ≠ p.1 ++ ['@'] := by
    intro p hp q hq hbad
    have hp' : p ∈ h := List.mem_of_mem_filter hp
    have hq' : q ∈ h := List.mem_of_mem_filter hq
    have hcl := hclean p hp'
    rw [← hbad] at hcl
    rw [dhas_of_mem h q hq'] at hcl
    exact Bool.noConfusion hcl
  unfold raw_to_typed
  rw [foldl_skip_null h
    (fun acc p =>
      if endsAt p.1 then dset acc p.1.dropLast (TVal.l (splitC ',' p.2))
      else dset acc p.1 (TVal.s p.2)) []]
  rw [foldl_congr_mem _ _
    (fun acc p => dset acc (decodeField p).1 (decodeField p).2) []
    (fun acc p _ => by
      by_cases hE : endsAt p.1 = true <;> simp [decodeField, hE])]
  rw [foldl_dset_fresh decodeField _ [] (by intro b _; rfl)
    (decoded_keys_nodup_aux _ hn hc)]
  simp

/-- A fold of `ddel` deletions equals one filter. -/
theorem foldl_ddel_filter (H : RawHash) (L : List Str) :
    L.foldl ddel H = H.filter (fun p => ¬p.1 ∈ L) := by
  induction L generalizing H with
  | nil => simp
  | cons a as ih =>
      simp only [List.foldl_cons, ih]
      rw [show ddel H a = H.filter (fun p => p.1 ≠ a) from rfl]
      rw [List.filter_filter]
      apply List.filter_congr
      intro p _
      by_cases h1 : p.1 = a <;> by_cases h2 : p.1 ∈ as <;> simp [h1, h2]

/-- Setting the sentinel and deleting every other field leaves exactly the
sentinel. -/
theorem filter_dset_null (h : RawHash) (hnodup : NodupKeys h) :
    (dset h NULLf NULLf).filter
        (fun p => ¬p.1 ∈ dkeys (h.filter (fun q => q.1 ≠ NULLf)))
      = [(NULLf, NULLf)] := by
  induction h with
  | nil => simp [dset, dkeys]
  | cons p ps ih =>
      simp only [NodupKeys, dkeys, List.map_cons, List.nodup_cons] at hnodup
      by_cases hp : p.1 = NULLf
      · -- p is replaced by the sentinel; every tail key is deleted
        have hd : dset (p :: ps) NULLf NULLf = (NULLf, NULLf) :: ps := by
          simp [dset, hp]
        rw [hd]
        have hN : ¬NULLf ∈ dkeys ((p :: ps).filter (fun q => q.1 ≠ NULLf)) := by
          simp only [dkeys, List.mem_map]
          rintro ⟨q, hq, hq1⟩
          have := List.of_mem_filter hq
          simp [hq1] at this
        rw [List.filter_cons]
        simp only [hN, decide_not]
        simp only [decide_eq_true_eq] at hN ⊢
        rw [if_pos (by simpa using hN)]
        have : ps.filter
            (fun q => ¬q.1 ∈ dkeys ((p :: ps).filter (fun r => r.1 ≠ NULLf))) = [] := by
          apply List.filter_eq_nil_iff.mpr
          intro q hq
          have hqN : q.1 ≠ NULLf := by
            intro hh
            rw [hp] at hnodup
            exact hnodup.1 (by simpa [hh] using List.mem_map.mpr ⟨q, hq, hh⟩)
          simp only [dkeys, List.mem_map, decide_not, Bool.not_eq_true',
            decide_eq_false_iff_not, not_not]
          exact ⟨q, by simp [List.filter_cons, hp, List.mem_filter, hq, hqN], rfl⟩
        simpa using this
      · -- p keeps its place, is deleted by the filter, and the tail recurses
        have hd : dset (p :: ps) NULLf NULLf = p :: dset ps NULLf NULLf := by
          simp [dset, hp]
        rw [hd]
        have hpin : p.1 ∈ dkeys ((p :: ps).filter (fun q => q.1 ≠ NULLf)) := by
          simp only [dkeys, List.mem_map]
          exact ⟨p, by simp [List.filter_cons, List.mem_filter, hp], rfl⟩
        rw [List.filter_cons]
        rw [if_neg (by simpa using hpin)]
        have hsame : ∀ q ∈ dset ps NULLf NULLf,
            (decide (¬q.1 ∈ dkeys ((p :: ps).filter (fun r => r.1 ≠ NULLf)))
              = decide (¬q.1 ∈ dkeys (ps.filter (fun r => r.1 ≠ NULLf)))) := by
          intro q hq
          apply decide_eq_decide.mpr
          have hkeys : dkeys ((p :: ps).filter (fun r => r.1 ≠ NULLf))
              = p.1 :: dkeys (ps.filter (fun r => r.1 ≠ NULLf)) := by
            simp [List.filter_cons, hp, dkeys]
          rw [hkeys]
          have hqp : q.1 ≠ p.1 := by
            -- p.1 is not a key of dset ps NULLf NULLf
            intro hh
            have hq1 : dhas (dset ps NULLf NULLf) q.1 = true := dhas_of_mem _ q hq
            rw [hh] at hq1
            simp only [dhas, dlookup_dset] at hq1
            rw [if_neg hp] at hq1
            have : p.1 ∈ dkeys ps := by
              by_contra hc
              rw [dlookup_eq_none_of_not_mem ps p.1 hc] at hq1
              simp at hq1
            exact hnodup.1 (by simpa [dkeys] using this)
          simp [hqp]
        rw [List.filter_congr hsame]
        exact ih hnodup.2

/-- Store-level fold of `HDEL`s over one key collapses to a hash-level fold,
as long as the sentinel keeps the hash nonempty. -/
theorem foldl_storeHdel_collapse (M : TypedRow) (s : Store) (hname : Str)
    (H : RawHash) (fname : Str × TVal → Str)
    (hne : ∀ p ∈ M, fname p ≠ NULLf) (hNull : dhas H NULLf = true) :
    M.foldl (fun st p => storeHdel st hname (fname p)) (dset s hname H)
      = dset s hname (M.foldl (fun hh p => ddel hh (fname p)) H) := by
  induction M generalizing H with
  | nil => simp
  | cons p ps ih =>
      simp only [List.foldl_cons]
      have hlook : dlookup (dset s hname H) hname = some H := by
        simp [dlookup_dset]
      have hNull' : dhas (ddel H (fname p)) NULLf = true := by
        simp only [dhas, dlookup_ddel]
        have : ¬NULLf = fname p := fun hh => hne p (by simp) hh.symm
        rw [if_neg this]
        exact hNull
      have hne' : ddel H (fname p) ≠ [] := ne_nil_of_dhas _ _ hNull'
      have hstep : storeHdel (dset s hname H) hname (fname p)
          = dset s hname (ddel H (fname p)) := by
        unfold storeHdel
        simp only [hlook]
        rw [if_neg hne']
        exact dset_dset s hname H (ddel H (fname p))
      rw [hstep, ih (ddel H (fname p)) (fun q hq => hne q (by simp [hq])) hNull']

/-- The raw field name `set_entry` deletes for a stale decoded field. -/
def fieldDelName (p : Str × TVal) : Str :=
  match p.2 with
  | TVal.l _ => p.1 ++ ['@']
  | TVal.s _ => p.1

/-- Deleting by the decoded type rule recovers the original raw field name. -/
theorem fieldDelName_decodeField (q : Str × Str) :
    fieldDelName (decodeField q) = q.1 := by
  by_cases hE : endsAt q.1 = true
  · simp only [decodeField, hE, if_true, fieldDelName]
    exact eq_dropLast_concat_of_endsAt q.1 hE
  · simp [decodeField, hE, fieldDelName]

/-- claim C5: `set_entry(t,k,{})` on a clean duplicate-free current hash
stores the hash as exactly the single field `"NULL" = "NULL"`; the entry then
exists at the store level (distinguishable from an absent entry), and a
subsequent `get_entry` returns the empty row because the sentinel field is
dropped on decode. -/
theorem set_entry_empty_row (s : Store) (table : Str) (key : RKey)
    (hnodup : NodupKeys (hgetall s (hashName table key)))
    (hclean : CleanHash (hgetall s (hashName table key))) :
    hgetall (set_entry s table key (some [])) (hashName table key)
        = [(NULLf, NULLf)] ∧
    dhas (set_entry s table key (some [])) (hashName table key) = true ∧
    get_entry (set_entry s table key (some [])) table key = [] := by
  have hstore : set_entry s table key (some [])
      = dset s (hashName table key) [(NULLf, NULLf)] := by
    show ((get_entry s table key).filter (fun p => ¬dhas ([] : TypedRow) p.1)).foldl
        (fun st p => storeHdel st (hashName table key) (fieldDelName p))
        (storeHmset s (hashName table key) (typed_to_raw []))
      = dset s (hashName table key) [(NULLf, NULLf)]
    have hfilter : (get_entry s table key).filter (fun p => ¬dhas ([] : TypedRow) p.1)
        = get_entry s table key := by
      apply List.filter_eq_self.mpr
      intro p _
      simp [dhas, dlookup]
    rw [hfilter]
    have horig : get_entry s table key
        = ((hgetall s (hashName table key)).filter (fun p => p.1 ≠ NULLf)).map
            decodeField :=
      raw_to_typed_clean _ hnodup hclean
    have hmset : storeHmset s (hashName table key) (typed_to_raw [])
        = dset s (hashName table key)
            (dset (hgetall s (hashName table key)) NULLf NULLf) := by
      show dset s (hashName table key)
          (hmsetHash (hgetall s (hashName table key)) [(NULLf, NULLf)]) = _
      simp [hmsetHash]
    rw [horig, hmset]
    rw [foldl_storeHdel_collapse _ s (hashName table key) _ fieldDelName
      (fun p hp => by
        rcases List.mem_map.mp hp with ⟨q, hq, hqe⟩
        have hqN : q.1 ≠ NULLf := by simpa using (List.of_mem_filter hq)
        rw [← hqe, fieldDelName_decodeField]
        exact hqN)
      (by simp [dhas, dlookup_dset])]
    congr 1
    rw [← List.foldl_map fieldDelName ddel]
    have hmap : (((hgetall s (hashName table key)).filter
          (fun p => p.1 ≠ NULLf)).map decodeField).map fieldDelName
        = dkeys ((hgetall s (hashName table key)).filter (fun p => p.1 ≠ NULLf)) := by
      rw [List.map_map]
      exact List.map_congr_left (fun q _ => fieldDelName_decodeField q)
    rw [hmap, foldl_ddel_filter]
    exact filter_dset_null _ hnodup
  refine ⟨?_, ?_, ?_⟩
  · rw [hstore]
    simp [hgetall, dlookup_dset]
  · rw [hstore]
    simp [dhas, dlookup_dset]
  · rw [get_entry, hstore]
    have hg : hgetall (dset s (hashName table key) [(NULLf, NULLf)])
        (hashName table key) = [(NULLf, NULLf)] := by
      simp [hgetall, dlookup_dset]
    rw [hg]
    decide

/-- claim C5 (witness): the sentinel facts at a concrete store whose current
hash is clean and duplicate-free. -/
theorem set_entry_empty_row_witness :
    NodupKeys (hgetall [(str "T|k", [(str "a", str "1")])]
        (hashName (str "T") (RKey.scalar (str "k")))) ∧
    CleanHash (hgetall [(str "T|k", [(str "a", str "1")])]
        (hashName (str "T") (RKey.scalar (str "k")))) ∧
    hgetall
        (set_entry [(str "T|k", [(str "a", str "1")])] (str "T")
          (RKey.scalar (str "k")) (some []))
        (hashName (str "T") (RKey.scalar (str "k"))) = [(NULLf, NULLf)] :=
  ⟨by decide, by decide,
    (set_entry_empty_row [(str "T|k", [(str "a", str "1")])] (str "T")
      (RKey.scalar (str "k")) (by decide) (by decide)).1⟩

/-! ### BlockingAccessor (`interface.py`: `blockable`, the wrapped accessors,
`_unavailable_data_handler`)

Real time is modelled by an explicit schedule: each `get_message` call is a
pair of the wall-clock seconds it consumed and the delivered message data
(`none` for a poll timeout). Each call of the wrapped accessor body is one
element of an attempt list; `none` as overall result means the finite
schedule was exhausted while the loop was still running. -/

/-- Outcome of one call of a `blockable`-wrapped accessor body. -/
inductive AttemptOut (α : Type) : Type
  | ok (v : α)
  | unavailable (data : Str)
  | respErr
  | connErr

/-- What a `blockable`-wrapped call does for its caller. -/
inductive WrapResult (α : Type) : Type
  | ret (v : Option α)
  | raiseUnavailable
  | raiseResponse

/-- `DBInterface.PUB_SUB_NOTIFICATION_TIMEOUT` (seconds). -/
def PUB_SUB_NOTIFICATION_TIMEOUT : Nat := 10

/-- `DBInterface.PUB_SUB_MAXIMUM_DATA_WAIT` (seconds). -/
def PUB_SUB_MAXIMUM_DATA_WAIT : Nat := 60

/-- `DBInterface._unavailable_data_handler`: poll `get_message` with the
per-message timeout while the elapsed time stays below the overall maximum
wait; a message whose data matches the awaited data returns `True` (after a
settling sleep), crossing the maximum wait returns `False`. -/
def unavailable_data_handler (target : Str) :
    Nat → List (Nat × Option Str) → Option Bool
  | elapsed, sched =>
    if PUB_SUB_MAXIMUM_DATA_WAIT ≤ elapsed then some false
    else
      match sched with
      | [] => none
      | (d, m) :: rest =>
          if m = some target then some true
          else unavailable_data_handler target (elapsed + d) rest

/-- `blockable.wrapped`: retry loop over the attempt outcomes. `handlers`
lists the results of successive `_unavailable_data_handler` calls; `chan`
says whether a keyspace-notification channel is open for this database.
Success unsubscribes and returns; unavailable data returns `None` at once
when not blocking, else subscribes-and-retries or waits; a response error
re-raises; a connection error closes (dropping any subscription), reconnects
and retries. -/
def wrapped {α : Type} (blocking : Bool) :
    List (AttemptOut α) → List Bool → Bool → Option (WrapResult α × Bool)
  | [], _, _ => none
  | a :: rest, handlers, chan =>
      match a with
      | AttemptOut.ok v => some (WrapResult.ret (some v), false)
      | AttemptOut.respErr => some (WrapResult.raiseResponse, chan)
      | AttemptOut.connErr => wrapped blocking rest handlers false
      | AttemptOut.unavailable _ =>
          if blocking then
            if chan then
              match handlers with
              | [] => none
              | r :: hrest =>
                  if r then wrapped blocking rest hrest chan
                  else some (WrapResult.raiseUnavailable, false)
            else wrapped blocking rest handlers true
          else some (WrapResult.ret none, chan)

/-- `client.hget(hash, field)`. -/
def hget (s : Store) (h f : Str) : Option Str := dlookup (hgetall s h) f

/-- Body of `DBInterface.keys`: raises unavailable-data when no key
matches. -/
def keys_body (s : Store) (pattern : Str → Bool) : AttemptOut (List Str) :=
  let ks := (dkeys s).filter pattern
  if ks = [] then AttemptOut.unavailable (str "hset") else AttemptOut.ok ks

/-- Body of `DBInterface.get`: `if not val` treats an absent field and an
empty-string value alike as unavailable data; the literal value `"None"` is
returned as `None`. -/
def get_body (s : Store) (_hash f : Str) : AttemptOut (Option Str) :=
  match hget s _hash f with
  | none => AttemptOut.unavailable _hash
  | some v =>
      if v = [] then AttemptOut.unavailable _hash
      else if v = str "None" then AttemptOut.ok none
      else AttemptOut.ok (some v)

/-- Body of `DBInterface.get_all`: an absent (empty) hash is unavailable
data; `"None"` values are mapped back to `None`. -/
def get_all_body (s : Store) (_hash : Str) :
    AttemptOut (List (Str × Option Str)) :=
  let table := hgetall s _hash
  if table = [] then AttemptOut.unavailable _hash
  else AttemptOut.ok
    (table.map (fun p => (p.1, if p.2 = str "None" then none else some p.2)))

/-- The handler returns `False` once the schedule carries no matching
notification and enough time to cross the maximum wait. -/
theorem unavailable_data_handler_false (target : Str) (elapsed : Nat)
    (sched : List (Nat × Option Str))
    (hnomatch : ∀ e ∈ sched, e.2 ≠ some target)
    (htime : PUB_SUB_MAXIMUM_DATA_WAIT ≤ elapsed + (sched.map Prod.fst).sum) :
    unavailable_data_handler target elapsed sched = some false := by
  induction sched generalizing elapsed with
  | nil =>
      simp only [List.map_nil, List.sum_nil, Nat.add_zero] at htime
      unfold unavailable_data_handler
      rw [if_pos htime]
  | cons e rest ih =>
      unfold unavailable_data_handler
      by_cases hel : PUB_SUB_MAXIMUM_DATA_WAIT ≤ elapsed
      · rw [if_pos hel]
      · rw [if_neg hel]
        have hm : ¬e.2 = some target := hnomatch e (by simp)
        cases e with
        | mk d m =>
            simp only at hm
            show (if m = some target then some true
              else unavailable_data_handler target (elapsed + d) rest) = some false
            rw [if_neg hm]
            exact ih (elapsed + d) (fun q hq => hnomatch q (by simp [hq]))
              (by simp only [List.map_cons, List.sum_cons] at htime; omega)

/-- claim C6: a blocking read of data that never appears is bounded — with an
open subscription whose schedule delivers no matching notification within the
overall maximum wait (polled in per-message timeouts), the handler reports
failure, and the wrapped accessor then unsubscribes (final channel state
closed) and surfaces the unavailable-data error. The first unavailable
attempt (no channel yet) subscribes and retries; the second consults the
handler. -/
theorem blocking_wait_bounded {α : Type} (rest : List (AttemptOut α))
    (handlers : List Bool) (d : Str) (sched : List (Nat × Option Str))
    (hnomatch : ∀ e ∈ sched, e.2 ≠ some d)
    (htime : PUB_SUB_MAXIMUM_DATA_WAIT ≤ (sched.map Prod.fst).sum)
    (_htimeout : ∀ e ∈ sched, e.1 ≤ PUB_SUB_NOTIFICATION_TIMEOUT) :
    unavailable_data_handler d 0 sched = some false ∧
    wrapped true
        (AttemptOut.unavailable d :: AttemptOut.unavailable d :: rest)
        ((unavailable_data_handler d 0 sched).getD true :: handlers) false
      = some (WrapResult.raiseUnavailable, false) := by
  have h1 : unavailable_data_handler d 0 sched = some false :=
    unavailable_data_handler_false d 0 sched hnomatch (by simpa using htime)
  refine ⟨h1, ?_⟩
  rw [h1]
  rfl

/-- claim C6 (witness): six matchless 10-second poll timeouts cross the
60-second maximum wait and the blocking call surfaces the error with the
subscription closed. -/
theorem blocking_wait_bounded_witness :
    unavailable_data_handler (str "K") 0
        [(10, none), (10, none), (10, none), (10, none), (10, none), (10, none)]
      = some false ∧
    wrapped true
        (AttemptOut.unavailable (str "K") ::
          AttemptOut.unavailable (str "K") :: ([] : List (AttemptOut Unit)))
        ((unavailable_data_handler (str "K") 0
            [(10, none), (10, none), (10, none), (10, none), (10, none),
              (10, none)]).getD true :: [])
        false
      = some (WrapResult.raiseUnavailable, false) :=
  blocking_wait_bounded [] [] (str "K")
    [(10, none), (10, none), (10, none), (10, none), (10, none), (10, none)]
    (by decide) (by decide) (by decide)

/-- claim C7: with `blocking=false` an unavailable-data attempt makes every
wrapped accessor return `None` immediately — independent of any further
scheduled attempts or handler results, with the notification-channel state
untouched (no subscription) — and the bodies of `keys`, `get` and `get_all`
signal unavailable data exactly when no key matches, the field is absent, or
the hash is absent. -/
theorem nonblocking_returns_none (s : Store) (pattern : Str → Bool)
    (_hash f : Str) (chan : Bool)
    (rest₁ : List (AttemptOut (List Str))) (hs₁ : List Bool)
    (rest₂ : List (AttemptOut (Option Str))) (hs₂ : List Bool)
    (rest₃ : List (AttemptOut (List (Str × Option Str)))) (hs₃ : List Bool) :
    ((dkeys s).filter pattern = [] →
      wrapped false (keys_body s pattern :: rest₁) hs₁ chan
        = some (WrapResult.ret none, chan)) ∧
    (hget s _hash f = none →
      wrapped false (get_body s _hash f :: rest₂) hs₂ chan
        = some (WrapResult.ret none, chan)) ∧
    (hgetall s _hash = [] →
      wrapped false (get_all_body s _hash :: rest₃) hs₃ chan
        = some (WrapResult.ret none, chan)) := by
  refine ⟨?_, ?_, ?_⟩
  · intro h
    simp [keys_body, h, wrapped]
  · intro h
    simp [get_body, h, wrapped]
  · intro h
    simp [get_all_body, h, wrapped]

/-- claim C7 (witness): on the empty store all three non-blocking reads
return `None` with the channel untouched. -/
theorem nonblocking_returns_none_witness :
    wrapped false (keys_body [] (fun _ => true) :: []) [] false
        = some (WrapResult.ret none, false) ∧
    wrapped false (get_body [] (str "H") (str "f") :: []) [] false
        = some (WrapResult.ret none, false) ∧
    wrapped false (get_all_body [] (str "H") :: []) [] false
        = some (WrapResult.ret none, false) :=
  ⟨(nonblocking_returns_none [] (fun _ => true) (str "H") (str "f") false
      [] [] [] [] [] []).1 (by decide),
   (nonblocking_returns_none [] (fun _ => true) (str "H") (str "f") false
      [] [] [] [] [] []).2.1 (by decide),
   (nonblocking_returns_none [] (fun _ => true) (str "H") (str "f") false
      [] [] [] [] [] []).2.2 (by decide)⟩

/-- claim C10: in `DBInterface.get` a stored empty-string field value takes
the unavailable-data path (`if not val`), exactly like a missing field: the
two attempts are indistinguishable, a non-blocking call returns `None`, and a
blocking call (with no subscription yet) subscribes and keeps waiting. -/
theorem get_empty_string_unavailable (s : Store) (_hash f : Str) (chan : Bool)
    (rest : List (AttemptOut (Option Str))) (hs : List Bool)
    (hempty : hget s _hash f = some []) :
    get_body s _hash f = AttemptOut.unavailable _hash ∧
    (∀ s' : Store, hget s' _hash f = none →
      get_body s' _hash f = get_body s _hash f) ∧
    wrapped false (get_body s _hash f :: rest) hs chan
      = some (WrapResult.ret none, chan) ∧
    wrapped true (get_body s _hash f :: rest) hs false
      = wrapped true rest hs true := by
  have hb : get_body s _hash f = AttemptOut.unavailable _hash := by
    simp [get_body, hempty]
  refine ⟨hb, ?_, ?_, ?_⟩
  · intro s' h'
    rw [hb]
    simp [get_body, h']
  · rw [hb]
    rfl
  · rw [hb]
    rfl

/-- claim C10 (witness): a store holding the empty string in the field shows
the behaviour concretely. -/
theorem get_empty_string_unavailable_witness :
    hget [(str "H", [(str "f", [])])] (str "H") (str "f") = some [] ∧
    wrapped false
        (get_body [(str "H", [(str "f", [])])] (str "H") (str "f") ::
          ([] : List (AttemptOut (Option Str)))) [] false
      = some (WrapResult.ret none, false) :=
  ⟨by decide,
    (get_empty_string_unavailable [(str "H", [(str "f", [])])] (str "H")
      (str "f") false [] [] (by decide)).2.2.1⟩

/-! ### ConfigDBPipeConnector: cursor-based pipelined strategy (claim C4)

`client.scan(cursor, match, count)` is modelled as examining the next `count`
keys of the keyspace from the cursor position and returning the matching ones
together with the next cursor, `0` signalling completion. The pipelined loops
are written with explicit fuel (structural recursion); fuel exhaustion yields
the outer `none` and is proved unreachable from the entry points. -/

/-- `ConfigDBPipeConnector.REDIS_SCAN_BATCH_SIZE`. -/
def REDIS_SCAN_BATCH_SIZE : Nat := 30

/-- `client.scan(cursor=cursor, match=pat, count=count)`. -/
def scanStep (s : Store) (cursor : Nat) (pat : Str → Bool) (count : Nat) :
    Nat × List Str :=
  let ks := dkeys s
  let window := (ks.drop cursor).take count
  let next :=
    if ks.length ≤ cursor + window.length then 0 else cursor + window.length
  (next, window.filter pat)

/-- The per-key step of `ConfigDBPipeConnector.__get_config`: the key split
happens outside any `try`, so a separator-less key propagates `ValueError`
(`none`). -/
def drainStep (s : Store) (acc : Option Snap) (k : Str) : Option Snap :=
  acc.bind fun d =>
    match splitFirstC SEP k with
    | none => none
    | some (t, row) =>
        some (snapInsert d t (deserialize_key row SEP) (raw_to_typed (hgetall s k)))

/-- Decoding one scanned batch of keys into the snapshot. -/
def drainKeys (s : Store) (ks : List Str) (acc : Option Snap) : Option Snap :=
  ks.foldl (drainStep s) acc

/-- `ConfigDBPipeConnector.get_config`'s scan-and-drain loop, fueled: scan a
batch, drop the init indicator, pipeline the `HGETALL`s, decode, and repeat
until the cursor returns to 0. `some none` is the uncaught `ValueError`;
outer `none` is fuel exhaustion. -/
def pipeGetConfigAux (s : Store) : Nat → Nat → Snap → Option (Option Snap)
  | 0, _, _ => none
  | fuel + 1, cursor, data =>
      let step := scanStep s cursor (fun _ => true) REDIS_SCAN_BATCH_SIZE
      let keys := step.2.filter (fun k => ¬k = INIT_INDICATOR)
      match drainKeys s keys (some data) with
      | none => some none
      | some d =>
          if step.1 = 0 then some (some d) else pipeGetConfigAux s fuel step.1 d

/-- `ConfigDBPipeConnector.get_config`. -/
def pipeGetConfig (s : Store) : Option (Option Snap) :=
  pipeGetConfigAux s (s.length + 1) 0 []

/-- A queued pipeline command (`pipe.delete` / `pipe.hmset`). -/
inductive Cmd : Type
  | del (k : Str)
  | hmset (k : Str) (fs : RawHash)

/-- Executing one queued command against the store. -/
def applyCmd (s : Store) : Cmd → Store
  | Cmd.del k => storeDel s k
  | Cmd.hmset k fs => storeHmset s k fs

/-- `ConfigDBPipeConnector.__delete_table` via `__delete_entries`: the scan
loop queueing a `DEL` for every matching key, fueled. -/
def pipeDelCmdsAux (s : Store) (pat : Str → Bool) : Nat → Nat → Option (List Cmd)
  | 0, _ => none
  | fuel + 1, cursor =>
      let step := scanStep s cursor pat REDIS_SCAN_BATCH_SIZE
      let cmds := step.2.map Cmd.del
      if step.1 = 0 then some cmds
      else (pipeDelCmdsAux s pat fuel step.1).map (fun rest => cmds ++ rest)

/-- The commands `ConfigDBPipeConnector.mod_config` queues for one table,
scanning the store as it is at queueing time (nothing queued has executed
yet). -/
def tableCmds (s : Store) (p : Str × Option TableData) : Option (List Cmd) :=
  match p.2 with
  | none => pipeDelCmdsAux s (tablePat p.1) (s.length + 1) 0
  | some rows =>
      some (rows.map fun q =>
        match q.2 with
        | none => Cmd.del (hashName p.1 q.1)
        | some d => Cmd.hmset (hashName p.1 q.1) (typed_to_raw d))

/-- `ConfigDBPipeConnector.mod_config`: queue all commands table by table
against the initial store, then execute them in order in one pipeline. -/
def pipeModConfig (s : Store) (data : CfgData) : Option Store :=
  let cmds := data.foldl
    (fun acc p => acc.bind fun cs => (tableCmds s p).map (fun tc => cs ++ tc))
    (some [])
  cmds.map fun cs => cs.foldl applyCmd s

/-- One whole-store operation of the observed interface. -/
inductive COp : Type
  | mod (data : CfgData)
  | get

/-- Running a sequence of operations with the naive per-key strategy:
resulting store and the snapshots returned by the `get`s. -/
def runNaive (s : Store) : List COp → Store × List Snap
  | [] => (s, [])
  | COp.mod d :: rest => runNaive (mod_config s d) rest
  | COp.get :: rest =>
      let r := runNaive s rest
      (r.1, get_config s :: r.2)

/-- Running the same sequence with the pipelined strategy; `none` when a
pipelined call fails (uncaught `ValueError`, or fuel exhaustion of the
model). -/
def runPipe (s : Store) : List COp → Option (Store × List Snap)
  | [] => some (s, [])
  | COp.mod d :: rest => (pipeModConfig s d).bind fun s' => runPipe s' rest
  | COp.get :: rest =>
      match pipeGetConfig s with
      | some (some snap) => (runPipe s rest).map fun r => (r.1, snap :: r.2)
      | _ => none

/-- Store well-formedness: every key is the init indicator or contains the
separator (every key the table layer itself writes does). -/
def WFStore (s : Store) : Prop :=
  ∀ k ∈ dkeys s, k = INIT_INDICATOR ∨ SEP ∈ k

instance (s : Store) : Decidable (WFStore s) := by
  unfold WFStore
  exact inferInstance

/-- Table independence of one write request: the key prefixes of distinct
tables are incomparable (holds whenever uppercased table names are distinct
and separator-free). -/
def TablesIndep (data : CfgData) : Prop :=
  List.Pairwise
    (fun p q =>
      (prefixOf p.1).isPrefixOf (prefixOf q.1) = false ∧
      (prefixOf q.1).isPrefixOf (prefixOf p.1) = false)
    data

instance (data : CfgData) : Decidable (TablesIndep data) := by
  unfold TablesIndep
  exact List.instDecidablePairwise data

/-- Well-formedness of an operation sequence: every write request has
independent tables. -/
def OpsWF (ops : List COp) : Prop :=
  ∀ o ∈ ops, match o with
  | COp.mod d => TablesIndep d
  | COp.get => True

instance (ops : List COp) : Decidable (OpsWF ops) := by
  unfold OpsWF
  have : ∀ o : COp, Decidable (match o with
    | COp.mod d => TablesIndep d
    | COp.get => True) := by
    intro o
    cases o <;> exact inferInstance
  exact List.decidableBAll _ ops

/-! ### Scan-loop lemmas -/

theorem drainKeys_none (s : Store) (ks : List Str) :
    drainKeys s ks none = none := by
  induction ks with
  | nil => rfl
  | cons k kt ih => simpa [drainKeys, drainStep] using ih

theorem drainKeys_append (s : Store) (a b : List Str) (acc : Option Snap) :
    drainKeys s (a ++ b) acc = drainKeys s b (drainKeys s a acc) :=
  List.foldl_append _ _ a b

theorem scan_window_decomp (ks : List Str) (cursor : Nat) :
    ks.drop cursor
      = (ks.drop cursor).take REDIS_SCAN_BATCH_SIZE
          ++ ks.drop (cursor + REDIS_SCAN_BATCH_SIZE) := by
  conv_lhs => rw [← List.take_append_drop REDIS_SCAN_BATCH_SIZE (ks.drop cursor)]
  rw [List.drop_drop]

theorem scan_window_full (ks : List Str) (cursor : Nat)
    (h : cursor + ((ks.drop cursor).take REDIS_SCAN_BATCH_SIZE).length < ks.length) :
    ((ks.drop cursor).take REDIS_SCAN_BATCH_SIZE).length = REDIS_SCAN_BATCH_SIZE := by
  rw [List.length_take, List.length_drop] at h ⊢
  omega

/-- The fueled `__get_config` loop, started anywhere with enough fuel, drains
exactly the keys from the cursor position on (minus the init indicator). -/
theorem pipeGetConfigAux_eq (s : Store) :
    ∀ (fuel cursor : Nat) (data : Snap), (dkeys s).length - cursor < fuel →
    pipeGetConfigAux s fuel cursor data
      = some (drainKeys s
          (((dkeys s).drop cursor).filter (fun k => ¬k = INIT_INDICATOR))
          (some data)) := by
  intro fuel
  induction fuel with
  | zero => intro cursor data h; omega
  | succ f ih =>
      intro cursor data h
      rw [pipeGetConfigAux]
      simp only [scanStep]
      rw [List.filter_true]
      have hdec : ((dkeys s).drop cursor).filter (fun k => ¬k = INIT_INDICATOR)
          = (((dkeys s).drop cursor).take REDIS_SCAN_BATCH_SIZE).filter
              (fun k => ¬k = INIT_INDICATOR)
            ++ ((dkeys s).drop (cursor + REDIS_SCAN_BATCH_SIZE)).filter
              (fun k => ¬k = INIT_INDICATOR) := by
        conv_lhs => rw [scan_window_decomp (dkeys s) cursor]
        rw [List.filter_append]
      rw [hdec, drainKeys_append]
      by_cases hnext : (dkeys s).length
          ≤ cursor + (((dkeys s).drop cursor).take REDIS_SCAN_BATCH_SIZE).length
      · -- last batch: the cursor returns to 0 and nothing remains
        have hempty : (dkeys s).drop (cursor + REDIS_SCAN_BATCH_SIZE) = [] := by
          apply List.drop_eq_nil_of_le
          have := List.length_take REDIS_SCAN_BATCH_SIZE ((dkeys s).drop cursor)
          rw [List.length_drop] at this
          omega
        rw [hempty]
        rw [if_pos hnext]
        cases hr : drainKeys s
            ((((dkeys s).drop cursor).take REDIS_SCAN_BATCH_SIZE).filter
              (fun k => ¬k = INIT_INDICATOR)) (some data) with
        | none => simp [drainKeys, hr]
        | some d => simp [drainKeys, hr]
      · -- a full batch was consumed and the loop continues
        rw [if_neg hnext]
        push_neg at hnext
        have hwl := scan_window_full (dkeys s) cursor hnext
        have hfuel : (dkeys s).length - (cursor + REDIS_SCAN_BATCH_SIZE) < f := by
          rw [hwl] at hnext
          simp only [REDIS_SCAN_BATCH_SIZE] at hnext ⊢
          omega
        have hne0 : cursor + REDIS_SCAN_BATCH_SIZE ≠ 0 := by
          simp [REDIS_SCAN_BATCH_SIZE]
        cases hr : drainKeys s
            ((((dkeys s).drop cursor).take REDIS_SCAN_BATCH_SIZE).filter
              (fun k => ¬k = INIT_INDICATOR)) (some data) with
        | none => simp [hr, drainKeys_none]
        | some d =>
            simp only [hr]
            rw [hwl]
            rw [if_neg hne0]
            rw [ih (cursor + REDIS_SCAN_BATCH_SIZE) d hfuel]

/-- Under store well-formedness the pipelined drain equals the naive
per-key fold: the init indicator is filtered on one side and skipped by the
`ValueError` handler on the other, and every other key splits. -/
theorem drainKeys_eq_naive (s : Store) (ks : List Str) (data : Snap)
    (hwf : ∀ k ∈ ks, k = INIT_INDICATOR ∨ SEP ∈ k) :
    drainKeys s (ks.filter (fun k => ¬k = INIT_INDICATOR)) (some data)
      = some (ks.foldl (getCfgStep s) data) := by
  induction ks generalizing data with
  | nil => rfl
  | cons k kt ih =>
      have ihr := fun d => ih d (fun q hq => hwf q (by simp [hq]))
      by_cases hki : k = INIT_INDICATOR
      · subst hki
        have hsplit : splitFirstC SEP INIT_INDICATOR = none := by decide
        have h1 : (INIT_INDICATOR :: kt).filter (fun k => ¬k = INIT_INDICATOR)
            = kt.filter (fun k => ¬k = INIT_INDICATOR) := by
          rw [List.filter_cons]
          simp
        have h2 : getCfgStep s data INIT_INDICATOR = data := by
          simp [getCfgStep, hsplit]
        rw [h1, List.foldl_cons, h2]
        exact ihr data
      · have hk : SEP ∈ k := (hwf k (by simp)).resolve_left hki
        rcases Option.isSome_iff_exists.mp (splitFirstC_isSome_of_mem SEP k hk)
          with ⟨pr, hsp⟩
        have h1 : (k :: kt).filter (fun k => ¬k = INIT_INDICATOR)
            = k :: kt.filter (fun k => ¬k = INIT_INDICATOR) := by
          rw [List.filter_cons]
          simp [hki]
        rw [h1, List.foldl_cons]
        cases pr with
        | mk t row =>
            have h2 : getCfgStep s data k
                = snapInsert data t (deserialize_key row SEP)
                    (raw_to_typed (hgetall s k)) := by
              simp [getCfgStep, hsp]
            have h3 : drainStep s (some data) k
                = some (snapInsert data t (deserialize_key row SEP)
                    (raw_to_typed (hgetall s k))) := by
              simp [drainStep, hsp]
            show List.foldl (drainStep s) (drainStep s (some data) k)
                (kt.filter (fun k => ¬k = INIT_INDICATOR)) = _
            rw [h2, h3]
            exact ihr _

/-- The pipelined `get_config` terminates (the cursor returns to the 0
sentinel within the fuel) and returns exactly the naive snapshot, for any
well-formed store. -/
theorem pipe_get_config_eq (s : Store) (hwf : WFStore s) :
    pipeGetConfig s = some (some (get_config s)) := by
  unfold pipeGetConfig
  rw [pipeGetConfigAux_eq s (s.length + 1) 0 [] (by
    have : (dkeys s).length = s.length := List.length_map s Prod.fst
    omega)]
  rw [List.drop_zero]
  rw [drainKeys_eq_naive s (dkeys s) [] hwf]
  rfl

/-! ### mod_config equivalence -/

/-- The key a queued command operates on. -/
def cmdKey : Cmd → Str
  | Cmd.del k => k
  | Cmd.hmset k _ => k

/-- The command list one table contributes, as a pure function (what the
fueled scan loop computes). -/
def tableCmdsL (s : Store) (p : Str × Option TableData) : List Cmd :=
  match p.2 with
  | none => ((dkeys s).filter (tablePat p.1)).map Cmd.del
  | some rows =>
      rows.map fun q =>
        match q.2 with
        | none => Cmd.del (hashName p.1 q.1)
        | some d => Cmd.hmset (hashName p.1 q.1) (typed_to_raw d)

/-- The fueled `__delete_table` scan loop collects a `DEL` for exactly the
matching keys from the cursor on. -/
theorem pipeDelCmdsAux_eq (s : Store) (pat : Str → Bool) :
    ∀ (fuel cursor : Nat), (dkeys s).length - cursor < fuel →
    pipeDelCmdsAux s pat fuel cursor
      = some ((((dkeys s).drop cursor).filter pat).map Cmd.del) := by
  intro fuel
  induction fuel with
  | zero => intro cursor h; omega
  | succ f ih =>
      intro cursor h
      rw [pipeDelCmdsAux]
      simp only [scanStep]
      have hdec : ((dkeys s).drop cursor).filter pat
          = (((dkeys s).drop cursor).take REDIS_SCAN_BATCH_SIZE).filter pat
            ++ ((dkeys s).drop (cursor + REDIS_SCAN_BATCH_SIZE)).filter pat := by
        conv_lhs => rw [scan_window_decomp (dkeys s) cursor]
        rw [List.filter_append]
      rw [hdec, List.map_append]
      by_cases hnext : (dkeys s).length
          ≤ cursor + (((dkeys s).drop cursor).take REDIS_SCAN_BATCH_SIZE).length
      · have hempty : (dkeys s).drop (cursor + REDIS_SCAN_BATCH_SIZE) = [] := by
          apply List.drop_eq_nil_of_le
          have := List.length_take REDIS_SCAN_BATCH_SIZE ((dkeys s).drop cursor)
          rw [List.length_drop] at this
          omega
        rw [if_pos hnext, hempty]
        simp
      · rw [if_neg hnext]
        push_neg at hnext
        have hwl := scan_window_full (dkeys s) cursor hnext
        have hfuel : (dkeys s).length - (cursor + REDIS_SCAN_BATCH_SIZE) < f := by
          rw [hwl] at hnext
          simp only [REDIS_SCAN_BATCH_SIZE] at hnext ⊢
          omega
        have hne0 : cursor + REDIS_SCAN_BATCH_SIZE ≠ 0 := by
          simp [REDIS_SCAN_BATCH_SIZE]
        rw [hwl, if_neg hne0, ih (cursor + REDIS_SCAN_BATCH_SIZE) hfuel]
        rfl

/-- The table-command queueing always succeeds and equals the pure list. -/
theorem tableCmds_eq (s : Store) (p : Str × Option TableData) :
    tableCmds s p = some (tableCmdsL s p) := by
  cases hp : p.2 with
  | none =>
      simp only [tableCmds, tableCmdsL, hp]
      rw [pipeDelCmdsAux_eq s (tablePat p.1) (s.length + 1) 0 (by
        have : (dkeys s).length = s.length := List.length_map s Prod.fst
        omega)]
      rw [List.drop_zero]
  | some rows => simp [tableCmds, tableCmdsL, hp]

/-- `ConfigDBPipeConnector.mod_config` queues the concatenation of the
per-table command lists and executes them in order. -/
theorem pipeModConfig_eq_cmds (s : Store) (data : CfgData) :
    pipeModConfig s data
      = some (((data.map (tableCmdsL s)).flatten).foldl applyCmd s) := by
  have haux : ∀ (d : CfgData) (cs : List Cmd),
      d.foldl (fun acc p => acc.bind fun cs => (tableCmds s p).map (fun tc => cs ++ tc))
          (some cs)
        = some (cs ++ (d.map (tableCmdsL s)).flatten) := by
    intro d
    induction d with
    | nil => intro cs; simp
    | cons p rest ih =>
        intro cs
        rw [List.foldl_cons]
        have hstep : (some cs).bind
            (fun cs => (tableCmds s p).map (fun tc => cs ++ tc))
            = some (cs ++ tableCmdsL s p) := by
          rw [tableCmds_eq]
          rfl
        rw [hstep, ih (cs ++ tableCmdsL s p)]
        simp
  show (data.foldl
      (fun acc p => acc.bind fun cs => (tableCmds s p).map (fun tc => cs ++ tc))
      (some [])).map (fun cs => cs.foldl applyCmd s) = _
  rw [haux data []]
  simp

/-- Keys of matching-key commands: all deletions stem from the filter, all
writes carry the table's own hash prefix. -/
theorem tablePat_hashName (t : Str) (k : RKey) :
    tablePat t (hashName t k) = true := by
  apply List.isPrefixOf_iff_prefix.mpr
  show List.IsPrefix (strUpper t ++ [SEP]) (strUpper t ++ SEP :: serialize_key k SEP)
  have h1 : strUpper t ++ SEP :: serialize_key k SEP
      = (strUpper t ++ [SEP]) ++ serialize_key k SEP := by
    rw [List.append_cons]
  rw [h1]
  exact List.prefix_append _ _

theorem tableCmdsL_keys (s : Store) (p : Str × Option TableData) :
    ∀ c ∈ tableCmdsL s p, tablePat p.1 (cmdKey c) = true := by
  intro c hc
  cases hp : p.2 with
  | none =>
      rw [tableCmdsL, hp] at hc
      simp only [List.mem_map] at hc
      rcases hc with ⟨k, hk, hck⟩
      rw [← hck]
      exact (List.mem_filter.mp hk).2
  | some rows =>
      rw [tableCmdsL, hp] at hc
      simp only [List.mem_map] at hc
      rcases hc with ⟨q, _, hck⟩
      rcases hq2 : q.2 with _ | d <;> rw [hq2] at hck <;> rw [← hck] <;>
        exact tablePat_hashName p.1 q.1

/-- Incomparable table prefixes never match a common key. -/
theorem pat_disjoint (tp tq : Str)
    (h1 : (prefixOf tp).isPrefixOf (prefixOf tq) = false)
    (h2 : (prefixOf tq).isPrefixOf (prefixOf tp) = false)
    (k : Str) (hk : tablePat tp k = true) : tablePat tq k = false := by
  by_contra hq
  rw [Bool.not_eq_false] at hq
  have hp' : List.IsPrefix (prefixOf tp) k := List.isPrefixOf_iff_prefix.mp hk
  have hq' : List.IsPrefix (prefixOf tq) k := List.isPrefixOf_iff_prefix.mp hq
  rcases List.prefix_or_prefix_of_prefix hp' hq' with hc | hc
  · rw [List.isPrefixOf_iff_prefix.mpr hc] at h1
    exact Bool.noConfusion h1
  · rw [List.isPrefixOf_iff_prefix.mpr hc] at h2
    exact Bool.noConfusion h2

theorem dkeys_ddel {κ α : Type} [DecidableEq κ] (m : List (κ × α)) (k : κ) :
    dkeys (ddel m k) = (dkeys m).filter (fun x => ¬x = k) := by
  induction m with
  | nil => rfl
  | cons p ps ih =>
      by_cases hp : p.1 = k
      · have h1 : ddel (p :: ps) k = ddel ps k := by
          simp [ddel, List.filter_cons, hp]
        rw [h1, ih]
        simp [dkeys, List.filter_cons, hp]
      · have h1 : ddel (p :: ps) k = p :: ddel ps k := by
          simp [ddel, List.filter_cons, hp]
        rw [h1]
        simp only [dkeys, List.map_cons, List.filter_cons] at ih ⊢
        rw [if_pos (by simpa using hp)]
        rw [ih]

/-- Applying a command whose key a pattern rejects leaves the pattern's
matching key list unchanged. -/
theorem applyCmd_matchList (st : Store) (c : Cmd) (pat : Str → Bool)
    (hc : pat (cmdKey c) = false) :
    (dkeys (applyCmd st c)).filter pat = (dkeys st).filter pat := by
  cases c with
  | del k =>
      simp only [applyCmd, storeDel, cmdKey] at hc ⊢
      rw [dkeys_ddel, List.filter_filter]
      apply List.filter_congr
      intro x _
      by_cases hx : pat x = true
      · have : ¬x = k := by
          intro hh
          rw [hh, hc] at hx
          exact Bool.noConfusion hx
        simp [hx, this]
      · simp only [Bool.not_eq_true] at hx
        simp [hx]
  | hmset k fs =>
      simp only [applyCmd, storeHmset, cmdKey] at hc ⊢
      by_cases hh : dhas st k
      · rw [dkeys_dset_of_has st k _ hh]
      · rw [dkeys_dset_of_not_has st k _ (by simpa using hh)]
        rw [List.filter_append]
        simp [hc]

theorem applyCmds_matchList (cmds : List Cmd) (st : Store) (pat : Str → Bool)
    (hc : ∀ c ∈ cmds, pat (cmdKey c) = false) :
    (dkeys (cmds.foldl applyCmd st)).filter pat = (dkeys st).filter pat := by
  induction cmds generalizing st with
  | nil => rfl
  | cons c cs ih =>
      rw [List.foldl_cons, ih (applyCmd st c) (fun q hq => hc q (by simp [hq]))]
      exact applyCmd_matchList st c pat (hc c (by simp))

/-- Executing one table's queued commands equals the naive per-table
operation, provided the store's matching keys agree with the scan-time
ones. -/
theorem tableCmds_apply_eq_naive (s st : Store) (p : Str × Option TableData)
    (hmatch : (dkeys st).filter (tablePat p.1) = (dkeys s).filter (tablePat p.1)) :
    (tableCmdsL s p).foldl applyCmd st = naiveTableOp st p := by
  cases hp : p.2 with
  | none =>
      rw [tableCmdsL, hp]
      rw [List.foldl_map]
      rw [naiveTableOp, hp]
      rw [delete_table]
      rw [show tableKeys st p.1 = (dkeys st).filter (tablePat p.1) from rfl]
      rw [hmatch]
      rfl
  | some rows =>
      rw [tableCmdsL, hp]
      rw [List.foldl_map]
      rw [naiveTableOp, hp]
      apply foldl_congr_mem
      intro st2 q _
      rcases hq : q.2 with _ | d
      · simp [applyCmd, mod_entry, hq]
      · simp [applyCmd, mod_entry, hq]

/-- Queue-then-execute over all tables equals the naive table-by-table
execution, given pairwise independent tables and a current store whose
matching keys agree with the scan-time store for every table of the
request. -/
theorem pipe_cmds_eq_naive (s : Store) :
    ∀ (data : CfgData) (st : Store), TablesIndep data →
    (∀ p ∈ data, (dkeys st).filter (tablePat p.1)
        = (dkeys s).filter (tablePat p.1)) →
    ((data.map (tableCmdsL s)).flatten).foldl applyCmd st = mod_config st data := by
  intro data
  induction data with
  | nil => intro st _ _; rfl
  | cons p rest ih =>
      intro st hind hmatch
      rw [List.map_cons, List.flatten_cons, List.foldl_append]
      have h1 : (tableCmdsL s p).foldl applyCmd st = naiveTableOp st p :=
        tableCmds_apply_eq_naive s st p (hmatch p (by simp))
      rw [h1]
      have hpair := (List.pairwise_cons.mp hind).1
      have hrest := (List.pairwise_cons.mp hind).2
      have hmatch' : ∀ q ∈ rest, (dkeys (naiveTableOp st p)).filter (tablePat q.1)
          = (dkeys s).filter (tablePat q.1) := by
        intro q hq
        rw [← h1]
        rw [applyCmds_matchList _ st (tablePat q.1)
          (fun c hc => by
            have hcp : tablePat p.1 (cmdKey c) = true := tableCmdsL_keys s p c hc
            exact pat_disjoint p.1 q.1 (hpair q hq).1 (hpair q hq).2 (cmdKey c) hcp)]
        exact hmatch q (by simp [hq])
      rw [ih (naiveTableOp st p) hrest hmatch']
      rfl

/-- The pipelined `mod_config` produces the same final store as the naive
`mod_config` whenever the request's tables are pairwise independent. -/
theorem pipe_mod_config_eq (s : Store) (data : CfgData)
    (hind : TablesIndep data) :
    pipeModConfig s data = some (mod_config s data) := by
  rw [pipeModConfig_eq_cmds]
  rw [pipe_cmds_eq_naive s data s hind (fun p _ => rfl)]

/-! ### Store well-formedness is preserved by writes -/

theorem SEP_mem_hashName (t : Str) (k : RKey) : SEP ∈ hashName t k := by
  unfold hashName
  exact List.mem_append.mpr (Or.inr (by simp))

theorem WFStore_storeDel (st : Store) (k : Str) (h : WFStore st) :
    WFStore (storeDel st k) := by
  intro x hx
  apply h
  rw [storeDel, dkeys_ddel] at hx
  exact (List.mem_filter.mp hx).1

theorem WFStore_storeHmset (st : Store) (k : Str) (fs : RawHash)
    (hk : k = INIT_INDICATOR ∨ SEP ∈ k) (h : WFStore st) :
    WFStore (storeHmset st k fs) := by
  intro x hx
  rw [storeHmset] at hx
  by_cases hh : dhas st k
  · rw [dkeys_dset_of_has st k _ hh] at hx
    exact h x hx
  · rw [dkeys_dset_of_not_has st k _ (by simpa using hh)] at hx
    rcases List.mem_append.mp hx with h1 | h1
    · exact h x h1
    · simp only [List.mem_singleton] at h1
      subst h1
      exact hk

theorem WFStore_foldl_storeDel (l : List Str) (st : Store) (h : WFStore st) :
    WFStore (l.foldl storeDel st) := by
  induction l generalizing st with
  | nil => exact h
  | cons k ks ih => exact ih (storeDel st k) (WFStore_storeDel st k h)

theorem WFStore_foldl_mod_entry (t : Str) (rows : TableData) (st : Store)
    (h : WFStore st) :
    WFStore (rows.foldl (fun st2 q => mod_entry st2 t q.1 q.2) st) := by
  induction rows generalizing st with
  | nil => exact h
  | cons q qs ih =>
      rw [List.foldl_cons]
      apply ih
      cases hq : q.2 with
      | none =>
          simp only [mod_entry, hq]
          exact WFStore_storeDel st _ h
      | some d =>
          simp only [mod_entry, hq]
          exact WFStore_storeHmset st _ _ (Or.inr (SEP_mem_hashName t q.1)) h

theorem WFStore_naiveTableOp (st : Store) (p : Str × Option TableData)
    (h : WFStore st) : WFStore (naiveTableOp st p) := by
  cases hp : p.2 with
  | none =>
      simp only [naiveTableOp, hp]
      exact WFStore_foldl_storeDel _ st h
  | some rows =>
      simp only [naiveTableOp, hp]
      exact WFStore_foldl_mod_entry p.1 rows st h

theorem WFStore_mod_config (s : Store) (data : CfgData) (h : WFStore s) :
    WFStore (mod_config s data) := by
  rw [mod_config]
  induction data generalizing s with
  | nil => exact h
  | cons p rest ih =>
      rw [List.foldl_cons]
      exact ih (naiveTableOp s p) (WFStore_naiveTableOp s p h)

/-- claim C4 (counterexample): the claim quantifies over any store contents,
but on a store holding the separator-less key `"FOO"` the strategies differ —
the naive `get_config` skips the key via its `ValueError` handler and returns
the empty snapshot, while the pipelined `__get_config` performs the same
two-name unpacking outside any `try` and the uncaught `ValueError` aborts the
call. -/
theorem pipe_naive_divergence :
    runPipe [(str "FOO", [(str "a", str "1")])] [COp.get] = none ∧
    runNaive [(str "FOO", [(str "a", str "1")])] [COp.get]
      = ([(str "FOO", [(str "a", str "1")])], [[]]) := by
  refine ⟨?_, ?_⟩
  · decide
  · decide

/-- claim C4 (amended): for any store whose keys all contain the separator
(or are the init indicator) and any operation sequence whose write requests
have pairwise-independent table prefixes, the naive and the pipelined
strategies produce identical snapshots for every `get_config` and identical
final store states, and every pipelined scan loop terminates with the cursor
back at the 0 sentinel (the fueled loops return `some`). Without these
restrictions the strategies differ: a separator-less key crashes only the
pipelined read, and case-colliding table names (e.g. `"a"` written, `"A"`
deleted in one request) make the pipelined write scan stale keys. -/
theorem strategy_equivalence (s : Store) (ops : List COp)
    (hwf : WFStore s) (hops : OpsWF ops) :
    runPipe s ops = some (runNaive s ops) := by
  induction ops generalizing s with
  | nil => rfl
  | cons o rest ih =>
      cases o with
      | mod d =>
          have hd : TablesIndep d := hops (COp.mod d) (by simp)
          rw [runPipe, runNaive]
          rw [pipe_mod_config_eq s d hd]
          show runPipe (mod_config s d) rest = some (runNaive (mod_config s d) rest)
          exact ih (mod_config s d) (WFStore_mod_config s d hwf)
            (fun o ho => hops o (by simp [ho]))
      | get =>
          rw [runPipe, runNaive]
          rw [pipe_get_config_eq s hwf]
          rw [ih s hwf (fun o ho => hops o (by simp [ho]))]
          rfl

/-- claim C4 (witness): a concrete well-formed store and a request writing
one table and deleting another, followed by a read. -/
theorem strategy_equivalence_witness :
    WFStore [(str "A|x", [(str "f", str "1")])] ∧
    OpsWF [COp.mod
        [(str "B", some [(RKey.scalar (str "y"),
            some [(str "g", TVal.s (str "2"))])]),
         (str "A", none)],
      COp.get] ∧
    runPipe [(str "A|x", [(str "f", str "1")])]
        [COp.mod
          [(str "B", some [(RKey.scalar (str "y"),
              some [(str "g", TVal.s (str "2"))])]),
           (str "A", none)],
         COp.get]
      = some (runNaive [(str "A|x", [(str "f", str "1")])]
          [COp.mod
            [(str "B", some [(RKey.scalar (str "y"),
                some [(str "g", TVal.s (str "2"))])]),
             (str "A", none)],
           COp.get]) :=
  ⟨by decide, by decide,
    strategy_equivalence _ _ (by decide) (by decide)⟩

end Swsssdk
